import Mathlib

/-
Verification of the RSS/XML feed parser and source registry of
finance-news-aggregator-rs (src/parser.rs, src/types.rs, src/error.rs,
src/news_source/mod.rs, src/news_source/cnbc.rs).

Strings are modelled as `List Char` (Rust `String` is UTF-8; every slice
index the source uses falls on a character boundary except one `chars().nth`
call in the decimal entity loop, which we model faithfully via explicit
UTF-8 byte lengths). `replaceAll` models Rust `str::replace` (leftmost,
non-overlapping, all occurrences; the source never calls it with an empty
pattern), and `findSub?` models `str::find` returning the first match
position.
-/

set_option maxHeartbeats 1000000

namespace FanSpec


/-- Fuel-indexed scanner behind `replaceAll`; the fuel only serves to make
the definition structurally recursive (and hence kernel-computable), and
is immaterial as soon as it is at least the length of the list
(`replaceAllF_fuel`). -/
def replaceAllF (pat repl : List Char) : Nat → List Char → List Char
  | _, [] => []
  | 0, a :: rest => a :: rest
  | f + 1, a :: rest =>
    if pat ≠ [] ∧ pat <+: (a :: rest) then
      repl ++ replaceAllF pat repl f ((a :: rest).drop pat.length)
    else
      a :: replaceAllF pat repl f rest

/-- Model of Rust `str::replace`: replace every (leftmost-first,
non-overlapping) occurrence of `pat` by `repl`. The empty pattern acts as
the identity here; the source only ever passes non-empty patterns. The
recurrence it satisfies is `replaceAll_cons`. -/
def replaceAll (pat repl l : List Char) : List Char :=
  replaceAllF pat repl l.length l

/-- Model of Rust `str::find` for a substring pattern, returning the index
(in characters) of the first occurrence. Rust returns byte indices; for the
patterns the source uses this is converted where it matters. -/
def findSub? (pat : List Char) : List Char → Option Nat
  | [] => if pat = [] then some 0 else none
  | a :: rest =>
    if pat <+: (a :: rest) then some 0
    else (findSub? pat rest).map (· + 1)

/-- Model of Rust `str::find` for a single character. -/
def findCharIdx? (c : Char) : List Char → Option Nat
  | [] => none
  | a :: rest => if a = c then some 0 else (findCharIdx? c rest).map (· + 1)

/-- Hexadecimal digit test, as accepted by Rust `u32::from_str_radix(_, 16)`. -/
def isHexDigitCh (c : Char) : Bool :=
  (Char.isDigit c) || (decide ('a' ≤ c) && decide (c ≤ 'f')) || (decide ('A' ≤ c) && decide (c ≤ 'F'))

def hexVal (c : Char) : Nat :=
  if Char.isDigit c then c.toNat - 48
  else if decide ('a' ≤ c) && decide (c ≤ 'f') then c.toNat - 97 + 10
  else c.toNat - 65 + 10

/-- Model of Rust `u32::from_str_radix(s, 16)`: an optional leading plus
sign, then a non-empty run of hex digits; any other character or overflow
past `u32::MAX` yields an error (`none`). -/
def parseHexU32? (s : List Char) : Option Nat :=
  let digits := match s with
    | '+' :: rest => rest
    | _ => s
  if digits ≠ [] ∧ digits.all isHexDigitCh then
    let v := digits.foldl (fun acc c => acc * 16 + hexVal c) 0
    if v < 2 ^ 32 then some v else none
  else none

/-- Model of Rust `str::parse::<u32>` (decimal): optional leading plus sign,
then a non-empty run of decimal digits, no overflow. -/
def parseDecU32? (s : List Char) : Option Nat :=
  let digits := match s with
    | '+' :: rest => rest
    | _ => s
  if digits ≠ [] ∧ digits.all Char.isDigit then
    let v := digits.foldl (fun acc c => acc * 10 + (c.toNat - 48)) 0
    if v < 2 ^ 32 then some v else none
  else none

/-- Model of Rust `char::from_u32`: valid scalar values only (below
0x110000 and outside the surrogate range). -/
def charFromU32? (n : Nat) : Option Char :=
  if h : n < 0xd800 ∨ (0xdfff < n ∧ n < 0x110000) then
    some (Char.ofNatAux n h)
  else none

/-- The replacement the hex entity loop in `decode_unicode_entities` makes
for one entity body: the decoded character, or deletion when the body does
not decode (`// If we can't decode it, just remove the entity to avoid
infinite loop`, src/parser.rs). -/
def hexEntityRepl (hexPart : List Char) : List Char :=
  match parseHexU32? hexPart with
  | some cp =>
    match charFromU32? cp with
    | some ch => [ch]
    | none => []
  | none => []

/-- Same for the decimal entity loop. -/
def decEntityRepl (decPart : List Char) : List Char :=
  match parseDecU32? decPart with
  | some cp =>
    match charFromU32? cp with
    | some ch => [ch]
    | none => []
  | none => []

def patAmpHashX : List Char := ['&', '#', 'x']

def patAmpHash : List Char := ['&', '#']

/-- Outcome of one iteration of a scan-and-replace loop: either the loop
exits (`break`, or no further match) with the current string, or it
continues with a possibly rewritten string. -/
inductive SweepOut where
  | done (l : List Char)
  | again (l : List Char)
deriving DecidableEq

/-- One iteration of the first loop of `NewsParser::decode_unicode_entities`
(src/parser.rs lines 288-303): find the first `"&#x"`, find the first `';'`
from there; if both exist, replace every occurrence of the entity substring
by its decoded character (or delete it when undecodable), otherwise exit. -/
def hexStep (l : List Char) : SweepOut :=
  match findSub? patAmpHashX l with
  | none => .done l
  | some i =>
    match findCharIdx? ';' (l.drop i) with
    | none => .done l
    | some e =>
      let entity := (l.drop i).take (e + 1)
      let hexPart := (entity.drop 3).dropLast
      .again (replaceAll entity (hexEntityRepl hexPart) l)

/-- Fuel-driven iteration of a loop body; `none` means the available fuel
was exhausted, which after the adequacy lemmas below means the Rust loop
does not terminate. -/
def sweepLoop (step : List Char → SweepOut) : Nat → List Char → Option (List Char)
  | 0, _ => none
  | f + 1, l =>
    match step l with
    | .done r => some r
    | .again r => sweepLoop step f r

/-- First loop of `decode_unicode_entities`, as a total function: the fuel
`l.length + 1` always suffices since every iteration shortens the string. -/
def hexSweep (l : List Char) : List Char :=
  (sweepLoop hexStep (l.length + 1) l).getD l

/-- UTF-8 encoded length, in bytes, of one character; Rust `char::len_utf8`. -/
def utf8CharLen (c : Char) : Nat :=
  if c.toNat < 0x80 then 1
  else if c.toNat < 0x800 then 2
  else if c.toNat < 0x10000 then 3
  else 4

/-- Byte offset of character position `i` of `l` in its UTF-8 encoding;
translates the byte indices Rust `str::find` returns into our character
lists. -/
def byteIdx (l : List Char) (i : Nat) : Nat :=
  ((l.take i).map utf8CharLen).sum

/-- One iteration of the second loop of `NewsParser::decode_unicode_entities`
(src/parser.rs lines 306-334): find the first `"&#"`. If the character at
position `start + 2` — `start` being a BYTE index fed to the CHARACTER
position lookup `chars().nth`, exactly as the source does — is `'x'`, the
loop means to skip this hex entity: when another `"&#"` exists later it
executes `continue` without modifying the string (the `new_start <= start`
break guard can never fire since `find` is relative to the slice start),
else it breaks. Otherwise it decodes or deletes the `&#...;` decimal
entity like the hex loop does. -/
def decStep (l : List Char) : SweepOut :=
  match findSub? patAmpHash l with
  | none => .done l
  | some i =>
    if l.get? (byteIdx l i + 2) = some 'x' then
      match findSub? patAmpHash (l.drop (i + 1)) with
      | some j =>
        if byteIdx l i + 1 + byteIdx (l.drop (i + 1)) j ≤ byteIdx l i then .done l
        else .again l
      | none => .done l
    else
      match findCharIdx? ';' (l.drop i) with
      | none => .done l
      | some e =>
        .again (replaceAll ((l.drop i).take (e + 1))
          (decEntityRepl ((((l.drop i).take (e + 1)).drop 2).dropLast)) l)

/-- Model of `NewsParser::decode_unicode_entities` (src/parser.rs lines 284-337):
hex sweep, then decimal sweep. The decimal loop is not always terminating,
hence the fuel and the `Option`: `none` models divergence of the Rust
loop (see `decStep_again_cases` and `decLoop_none_mono` for why the chosen
fuel is adequate: an iteration either shortens the string or leaves it
unchanged, and an unchanged string loops forever). -/
def decode_unicode_entities (s : String) : Option String :=
  let h := hexSweep s.toList
  (sweepLoop decStep (h.length + 1) h).map fun l => String.mk l

/-- Rust `str::replace` lifted to `String`. -/
def replaceStr (s pat repl : String) : String :=
  String.mk (replaceAll pat.toList repl.toList s.toList)

/-- ASCII apostrophe, written by code point to keep source quoting tidy. -/
def apos : Char := Char.ofNat 39

/-- ASCII double quote. -/
def quot : Char := Char.ofNat 34

/-- The eight smart-quote numeric character references and their ASCII
replacements, in the order `NewsParser::preprocess_unicode_entities`
replaces them (src/parser.rs lines 270-278). -/
def smartQuoteTable : List (String × Char) :=
  [("&#x2018;", apos), ("&#x2019;", apos),
   ("&#x201C;", quot), ("&#x201D;", quot),
   ("&#8216;", apos), ("&#8217;", apos),
   ("&#8220;", quot), ("&#8221;", quot)]

/-- Model of `NewsParser::preprocess_unicode_entities` (src/parser.rs lines
269-279): eight chained `String::replace` calls — here a left fold over
the table above, in the same order — rewriting smart-quote numeric
character references to plain ASCII quotes, applied to the whole document
before tokenization. -/
def preprocess_unicode_entities (content : String) : String :=
  smartQuoteTable.foldl (fun acc pr => replaceStr acc pr.1 (String.mk [pr.2]))
    content

/-- The hard-coded namespace table built in `NewsParser::new`
(src/parser.rs lines 55-113), keyed by the client type string. -/
def namespacesFor (client_type : String) : List String :=
  if client_type = "wsj" then
    ["http://dowjones.net/rss/",
     "http://purl.org/rss/1.0/modules/content/",
     "http://search.yahoo.com/mrss/"]
  else if client_type = "cnbc" then
    ["http://search.cnbc.com/rss/2.0/modules/siteContentMetadata"]
  else if client_type = "nasdaq" then
    ["http://purl.org/dc/elements/1.1/",
     "http://nasdaq.com/reference/feeds/1.0"]
  else if client_type = "market_watch" then
    ["http://rssnamespace.org/feedburner/ext/1.0"]
  else if client_type = "sp_global" then
    []
  else if client_type = "seeking_alpha" then
    ["http://search.yahoo.com/mrss/",
     "https://seekingalpha.com/api/1.0"]
  else if client_type = "cnn_finance" then
    ["http://rssnamespace.org/feedburner/ext/1.0",
     "http://search.yahoo.com/mrss/"]
  else if client_type = "yahoo" then
    ["http://search.yahoo.com/mrss/"]
  else []

/-- Index of the last occurrence of a character; Rust `str::rfind`. -/
def rfindIdx? (c : Char) : List Char → Option Nat
  | [] => none
  | a :: rest =>
    match rfindIdx? c rest with
    | some i => some (i + 1)
    | none => if a = c then some 0 else none

/-- The namespace-deletion pass of `NewsParser::clean_tag_name`
(src/parser.rs lines 251-255): delete every occurrence of each namespace
URI configured for this client type from the raw tag name. -/
def stripNamespaces (client_type tag : String) : String :=
  (namespacesFor client_type).foldl (fun acc ns => replaceStr acc ns "") tag

/-- Model of `NewsParser::clean_tag_name` (src/parser.rs lines 248-263): the
namespace-deletion pass, then keep only what follows the last colon, when
a colon remains. -/
def clean_tag_name (client_type tag : String) : String :=
  match rfindIdx? ':' (stripNamespaces client_type tag).toList with
  | some i => String.mk ((stripNamespaces client_type tag).toList.drop (i + 1))
  | none => stripNamespaces client_type tag

/-- Model of `NewsArticle` (src/types.rs lines 7-18). The `HashMap` behind
`extra_fields` is modelled as an association list; the parser only ever
uses keyed get and insert, never iteration, so ordering is irrelevant. -/
structure NewsArticle where
  title : Option String
  link : Option String
  description : Option String
  pub_date : Option String
  guid : Option String
  category : Option String
  author : Option String
  source : Option String
  extra_fields : List (String × String)
deriving DecidableEq

/-- Model of `NewsArticle::new` (src/types.rs lines 21-33): every field empty. -/
def NewsArticle.new : NewsArticle :=
  ⟨none, none, none, none, none, none, none, none, []⟩

/-- Model of `HashMap::get` on the association-list representation. -/
def mapGet? (m : List (String × String)) (k : String) : Option String :=
  match m with
  | [] => none
  | (k2, v) :: rest => if k2 = k then some v else mapGet? rest k

/-- Model of `HashMap::insert` on the association-list representation:
replaces the value
under an existing key, otherwise appends the binding. -/
def mapInsert (m : List (String × String)) (k v : String) :
    List (String × String) :=
  match m with
  | [] => [(k, v)]
  | (k2, v2) :: rest =>
    if k2 = k then (k, v) :: rest else (k2, v2) :: mapInsert rest k v

/-- Rust `str::to_lowercase` as used on tag names. Rust lowercases full
Unicode; this model lowercases the ASCII range (`Char.toLower`), which
agrees on every tag name the dispatch below compares against. -/
def lowerAscii (s : String) : String :=
  String.mk (s.toList.map Char.toLower)

/-- Model of `NewsParser::set_article_field` (src/parser.rs lines 346-383):
dispatch on the lowercased clean tag name; title, link and description
append to existing content, `pubdate`, `guid`, `category`, and
`author`/`creator` overwrite, and everything else upserts into
`extra_fields` under the original-case tag, appending when present. -/
def set_article_field (article : NewsArticle) (tag value : String) :
    NewsArticle :=
  let lt := lowerAscii tag
  if lt = "title" then
    match article.title with
    | some existing => { article with title := some (existing ++ value) }
    | none => { article with title := some value }
  else if lt = "link" then
    match article.link with
    | some existing => { article with link := some (existing ++ value) }
    | none => { article with link := some value }
  else if lt = "description" then
    match article.description with
    | some existing =>
      { article with description := some (existing ++ value) }
    | none => { article with description := some value }
  else if lt = "pubdate" then { article with pub_date := some value }
  else if lt = "guid" then { article with guid := some value }
  else if lt = "category" then { article with category := some value }
  else if lt = "author" ∨ lt = "creator" then
    { article with author := some value }
  else
    match mapGet? article.extra_fields tag with
    | some existing =>
      { article with
        extra_fields := mapInsert article.extra_fields tag (existing ++ value) }
    | none =>
      { article with extra_fields := mapInsert article.extra_fields tag value }

/-- The underlying `quick_xml::Error`, kept abstract. -/
inductive XmlError where
  | mk (msg : String)
deriving DecidableEq

/-- Model of `FanError` (src/error.rs). Foreign payload types are abstracted to
their message strings; `xmlParsing` keeps the typed tokenizer error. -/
inductive FanError where
  | http (msg : String)
  | xmlParsing (e : XmlError)
  | jsonSerialization (msg : String)
  | ioError (msg : String)
  | invalidUrl (msg : String)
  | feedParsing (msg : String)
  | unknown (msg : String)
deriving DecidableEq

instance {ε α : Type} [DecidableEq ε] [DecidableEq α] :
    DecidableEq (Except ε α) := fun x y =>
  match x, y with
  | Except.error e1, Except.error e2 =>
    if h : e1 = e2 then isTrue (by rw [h]) else
      isFalse (fun hc => h (by cases hc; rfl))
  | Except.ok a1, Except.ok a2 =>
    if h : a1 = a2 then isTrue (by rw [h]) else
      isFalse (fun hc => h (by cases hc; rfl))
  | Except.error _, Except.ok _ => isFalse (fun hc => by cases hc)
  | Except.ok _, Except.error _ => isFalse (fun hc => by cases hc)

/-- The tokenizer events `parse_response` consumes (`quick_xml` `Event`).
`close` is `Event::End`; `other` stands for the event kinds the loop
ignores via its catch-all arm (`Empty`, `Comment`, `Decl`, ...). Text and
CDATA payloads carry the already-decoded string the source obtains from
the event bytes; the invalid-UTF-8 `continue` arms of the source cannot
arise in this model because Lean strings are always valid Unicode. -/
inductive XEvent where
  | start (tag : String)
  | text (payload : String)
  | cdata (payload : String)
  | close (tag : String)
  | other
deriving DecidableEq

/-- The mutable loop state of `NewsParser::parse_response` (src/parser.rs
lines 156-159). -/
structure ParseState where
  articles : List NewsArticle
  current_article : NewsArticle
  current_tag : String
  in_item : Bool
deriving DecidableEq

def initState : ParseState :=
  ⟨[], NewsArticle.new, "", false⟩

/-- One iteration of the `parse_response` event loop (src/parser.rs lines
162-239) on a single event. `none` models divergence of the numeric entity
sweep inside the `Event::Text` arm. -/
def procEvent (client_type : String) (st : ParseState) :
    XEvent → Option ParseState
  | .start tag =>
    let ctag := clean_tag_name client_type tag
    if ctag = "item" then
      some { st with
        current_tag := ctag, in_item := true,
        current_article := NewsArticle.new }
    else some { st with current_tag := ctag }
  | .text payload =>
    if st.in_item ∧ st.current_tag ≠ "" then
      match decode_unicode_entities payload with
      | none => none
      | some decoded =>
        some { st with
          current_article :=
            set_article_field st.current_article st.current_tag decoded }
    else some st
  | .cdata payload =>
    if st.in_item ∧ st.current_tag ≠ "" then
      some { st with
        current_article :=
          set_article_field st.current_article st.current_tag payload }
    else some st
  | .close tag =>
    let ctag := clean_tag_name client_type tag
    if ctag = "item" ∧ st.in_item then
      some { st with
        articles := st.articles ++ [st.current_article],
        in_item := false, current_tag := "" }
    else some { st with current_tag := "" }
  | .other => some st

/-- Run the event loop over a list of events. -/
def runEvents (client_type : String) (st : ParseState) :
    List XEvent → Option ParseState
  | [] => some st
  | e :: rest =>
    match procEvent client_type st e with
    | none => none
    | some st2 => runEvents client_type st2 rest

/-- Model of `NewsParser::parse_response` (src/parser.rs lines 149-242) over the
token stream the tokenizer produces for the (preprocessed) document:
`events` are the events before the stream ends, and `term` is how it ends
— `none` for `Event::Eof`, `some e` for a tokenizer error, which the
source maps to `FanError::XmlParsing` and returns at once. The outer
`Option` models divergence inside the entity sweep. -/
def parse_response (client_type : String) (events : List XEvent)
    (term : Option XmlError) : Option (Except FanError (List NewsArticle)) :=
  match runEvents client_type initState events with
  | none => none
  | some st =>
    match term with
    | some e => some (Except.error (FanError.xmlParsing e))
    | none => some (Except.ok st.articles)

/-- The source stamping in `NewsSource::fetch_feed_by_url`
(src/news_source/mod.rs lines 88-91): after a successful parse, overwrite
`source` on every article with the source name, unconditionally. -/
def stamp_source (name : String) (articles : List NewsArticle) :
    List NewsArticle :=
  articles.map fun a => { a with source := some name }

/-- Model of `NewsSource::fetch_feed_by_url` (src/news_source/mod.rs lines 78-95)
downstream of the HTTP GET: the fetched body tokenizes to `events`/`term`,
is parsed, and on success every article is stamped with the source name. -/
def fetch_feed_by_url (name client_type : String) (events : List XEvent)
    (term : Option XmlError) : Option (Except FanError (List NewsArticle)) :=
  (parse_response client_type events term).map fun r =>
    r.map (stamp_source name)

/-- Association-list get for the CNBC topic table. -/
def natGet? (m : List (String × Nat)) (k : String) : Option Nat :=
  match m with
  | [] => none
  | (k2, v) :: rest => if k2 = k then some v else natGet? rest k

/-- The CNBC topic table (src/news_source/cnbc.rs lines 37-62). -/
def cnbc_topic_categories : List (String × Nat) :=
  [("top_news", 100003114), ("world_news", 100727362),
   ("us_news", 15837362), ("asia_news", 19832390),
   ("europe_news", 19794221), ("business", 10001147),
   ("earnings", 15839135), ("commentary", 100370673),
   ("economy", 20910258), ("finance", 10000664),
   ("technology", 19854910), ("politics", 10000113),
   ("health_care", 10000108), ("real_estate", 10000115),
   ("wealth", 10001054), ("autos", 10000101),
   ("energy", 19836768), ("media", 10000110),
   ("retail", 10000116), ("travel", 10000739),
   ("small_business", 44877279), ("investing", 15839069),
   ("financial_advisors", 100646281), ("personal_finance", 21324812)]

/-- The CNBC url map built in `CNBC::with_config`
(src/news_source/cnbc.rs lines 34-35) from the default config base URL. -/
def cnbc_url_map : List (String × String) :=
  [("base", "https://www.cnbc.com/id/\x7btopic_id\x7d/device/rss/rss.html")]

/-- Model of `CNBC::build_topic_url` (src/news_source/cnbc.rs lines 117-127): look
the topic up in the topic table — a missing topic is
`FanError::InvalidUrl("Invalid topic: ...")` — then substitute the numeric
id into the base URL template. -/
def cnbc_build_topic_url (topic : String) : Except FanError String :=
  match natGet? cnbc_topic_categories topic with
  | none => Except.error (FanError.invalidUrl ("Invalid topic: " ++ topic))
  | some topic_id =>
    match mapGet? cnbc_url_map "base" with
    | none => Except.error (FanError.invalidUrl "Base URL not found")
    | some base =>
      Except.ok (replaceStr base "\x7btopic_id\x7d" (toString topic_id))

/-- The default `NewsSource::build_topic_url`
(src/news_source/mod.rs lines 58-66): substitute the topic into the base
URL template, failing only when the url map lacks a base entry. -/
def default_build_topic_url (url_map : List (String × String))
    (topic : String) : Except FanError String :=
  match mapGet? url_map "base" with
  | none => Except.error (FanError.invalidUrl "Base URL not found")
  | some base => Except.ok (replaceStr base "\x7btopic\x7d" topic)

/-- Model of `NewsSource::fetch_topic` (src/news_source/mod.rs lines 108-112):
`build_topic_url(topic)?` then `fetch_feed_by_url(&url)`. The network
effect is abstracted as a function from the URL to a result, and the
returned list records which URLs were actually fetched, so that "no
network call was attempted" is the statement that the trace is empty. -/
def fetch_topic_trace (build : String → Except FanError String)
    (fetch : String → Except FanError (List NewsArticle))
    (topic : String) :
    Except FanError (List NewsArticle) × List String :=
  match build topic with
  | Except.error e => (Except.error e, [])
  | Except.ok url => (fetch url, [url])

/-- Specification-side view for the item/article correspondence: is this
event the opening of an `<item>` element (after tag cleaning)? -/
def isItemStart (client_type : String) : XEvent → Bool
  | XEvent.start tag => clean_tag_name client_type tag = "item"
  | _ => false

/-- Specification-side view: is this event the closing of an `<item>`? -/
def isItemClose (client_type : String) : XEvent → Bool
  | XEvent.close tag => clean_tag_name client_type tag = "item"
  | _ => false

/-- Specification-side segmentation of the event stream into item spans,
one per `<item>` element that is closed before end-of-document, in
document order. The accumulator holds the events seen since the item
currently open (re-)started; an `<item>` start inside an open item
restarts its span (the parser discards the in-progress article there),
and an item still open when the events run out contributes no span. -/
def spansAux (client_type : String) :
    List XEvent → Option (List XEvent) → List (List XEvent)
  | [], _ => []
  | e :: rest, none =>
    if isItemStart client_type e then spansAux client_type rest (some [])
    else spansAux client_type rest none
  | e :: rest, some acc =>
    if isItemStart client_type e then spansAux client_type rest (some [])
    else if isItemClose client_type e then
      acc :: spansAux client_type rest none
    else spansAux client_type rest (some (acc ++ [e]))

/-- The item spans of a document, in document order. -/
def itemSpans (client_type : String) (events : List XEvent) :
    List (List XEvent) :=
  spansAux client_type events none

/-- Specification-side per-item folding: how one in-item event transforms
the in-progress article and the active clean tag, mirroring what the
parser does between an item start and its close. -/
def buildStep (client_type : String) (s : NewsArticle × String) :
    XEvent → Option (NewsArticle × String)
  | XEvent.start tag => some (s.1, clean_tag_name client_type tag)
  | XEvent.text payload =>
    if s.2 ≠ "" then
      match decode_unicode_entities payload with
      | none => none
      | some decoded => some (set_article_field s.1 s.2 decoded, s.2)
    else some s
  | XEvent.cdata payload =>
    if s.2 ≠ "" then some (set_article_field s.1 s.2 payload, s.2)
    else some s
  | XEvent.close _ => some (s.1, "")
  | XEvent.other => some s

def foldSpan (client_type : String) :
    (NewsArticle × String) → List XEvent → Option (NewsArticle × String)
  | s, [] => some s
  | s, e :: rest =>
    match buildStep client_type s e with
    | none => none
    | some s2 => foldSpan client_type s2 rest

/-- The article one closed item span produces: fold its events over a
fresh article, the active tag starting as `"item"` (which the parser sets
when it sees the item start). `none` models divergence of the entity
sweep on one of the span's text payloads. -/
def buildFromSpan (client_type : String) (span : List XEvent) :
    Option NewsArticle :=
  (foldSpan client_type (NewsArticle.new, "item") span).map (fun s => s.1)

/-- Build every span's article, in order. -/
def buildAll (client_type : String) :
    List (List XEvent) → Option (List NewsArticle)
  | [] => some []
  | s :: rest =>
    match buildFromSpan client_type s with
    | none => none
    | some a => (buildAll client_type rest).map (fun l => a :: l)

/-- The abstraction relation between the parser loop state and the
specification-side segmentation state: outside an item the segmentation
carries no accumulator; inside an item the accumulator replays, from a
fresh article, exactly to the in-progress article and active tag. -/
def spanRel (client_type : String) (st : ParseState)
    (acc? : Option (List XEvent)) : Prop :=
  match acc? with
  | none => st.in_item = false
  | some acc =>
    st.in_item = true ∧
      foldSpan client_type (NewsArticle.new, "item") acc =
        some (st.current_article, st.current_tag)

theorem replaceAllF_fuel {pat repl : List Char} :
    ∀ (n : Nat) (l : List Char) (f g : Nat), l.length = n →
      l.length ≤ f → l.length ≤ g →
      replaceAllF pat repl f l = replaceAllF pat repl g l := by
  intro n
  induction n using Nat.strong_induction_on with
  | _ n ih =>
    intro l f g hn hf hg
    cases l with
    | nil => cases f <;> cases g <;> rfl
    | cons a rest =>
      simp only [List.length_cons] at hn hf hg
      cases f with
      | zero => omega
      | succ f =>
        cases g with
        | zero => omega
        | succ g =>
          simp only [replaceAllF]
          split
          · next h =>
            have hp : 0 < pat.length := List.length_pos.mpr h.1
            have hlen : ((a :: rest).drop pat.length).length
                = rest.length + 1 - pat.length := by
              simp [List.length_drop]
            refine congrArg (repl ++ ·) ?_
            exact ih ((a :: rest).drop pat.length).length
              (by rw [hlen]; omega) _ f g rfl
              (by rw [hlen]; omega) (by rw [hlen]; omega)
          · exact congrArg (a :: ·)
              (ih rest.length (by omega) rest f g rfl (by omega) (by omega))

theorem replaceAll_nil (pat repl : List Char) : replaceAll pat repl [] = [] :=
  rfl

theorem replaceAll_cons (pat repl : List Char) (a : Char) (rest : List Char) :
    replaceAll pat repl (a :: rest) =
      if pat ≠ [] ∧ pat <+: (a :: rest) then
        repl ++ replaceAll pat repl ((a :: rest).drop pat.length)
      else
        a :: replaceAll pat repl rest := by
  show replaceAllF pat repl (rest.length + 1) (a :: rest) = _
  rw [replaceAllF]
  split
  · next h =>
    have hp : 0 < pat.length := List.length_pos.mpr h.1
    rw [replaceAllF_fuel ((a :: rest).drop pat.length).length _ _ _ rfl
      (by simp only [List.length_drop, List.length_cons]; omega) le_rfl]
    rfl
  · rfl

/-- Induction along the recurrence of `replaceAll`. -/
theorem replaceAll_induct (pat repl : List Char) (motive : List Char → Prop)
    (case1 : motive [])
    (case2 : ∀ (a : Char) (rest : List Char),
      (pat ≠ [] ∧ pat <+: (a :: rest)) →
      motive ((a :: rest).drop pat.length) → motive (a :: rest))
    (case3 : ∀ (a : Char) (rest : List Char),
      ¬ (pat ≠ [] ∧ pat <+: (a :: rest)) →
      motive rest → motive (a :: rest)) :
    ∀ l : List Char, motive l := by
  have key : ∀ (n : Nat) (l : List Char), l.length = n → motive l := by
    intro n
    induction n using Nat.strong_induction_on with
    | _ n ih =>
      intro l hn
      match l with
      | [] => exact case1
      | a :: rest =>
        by_cases hc : pat ≠ [] ∧ pat <+: (a :: rest)
        · have hp : 0 < pat.length := List.length_pos.mpr hc.1
          refine case2 a rest hc (ih _ ?_ _ rfl)
          simp only [List.length_drop, List.length_cons] at *
          omega
        · refine case3 a rest hc (ih _ ?_ rest rfl)
          simp only [List.length_cons] at hn
          omega
  exact fun l => key l.length l rfl

theorem findSub?_prefix_drop {pat : List Char} :
    ∀ {l : List Char} {i : Nat}, findSub? pat l = some i → pat <+: l.drop i := by
  intro l
  induction l with
  | nil =>
    intro i h
    simp only [findSub?] at h
    split at h
    · next hp =>
      cases h
      simpa [hp]
    · cases h
  | cons a rest ih =>
    intro i h
    simp only [findSub?] at h
    split at h
    · next hp =>
      cases h
      simpa using hp
    · next hp =>
      rcases Option.map_eq_some'.mp h with ⟨j, hj, rfl⟩
      simpa using ih hj

theorem findCharIdx?_get {c : Char} :
    ∀ {l : List Char} {e : Nat}, findCharIdx? c l = some e → l.get? e = some c := by
  intro l
  induction l with
  | nil => intro e h; simp [findCharIdx?] at h
  | cons a rest ih =>
    intro e h
    simp only [findCharIdx?] at h
    split at h
    · next ha => cases h; simpa using ha
    · rcases Option.map_eq_some'.mp h with ⟨j, hj, rfl⟩
      simpa using ih hj

theorem findCharIdx?_lt_length {c : Char} {l : List Char} {e : Nat}
    (h : findCharIdx? c l = some e) : e < l.length :=
  List.get?_eq_some.mp (findCharIdx?_get h) |>.1

theorem findCharIdx?_min {c : Char} :
    ∀ {l : List Char} {e : Nat}, findCharIdx? c l = some e →
      ∀ j, j < e → l.get? j ≠ some c := by
  intro l
  induction l with
  | nil => intro e h; simp [findCharIdx?] at h
  | cons a rest ih =>
    intro e h j hj
    simp only [findCharIdx?] at h
    split at h
    · cases h; omega
    · next ha =>
      rcases Option.map_eq_some'.mp h with ⟨k, hk, rfl⟩
      cases j with
      | zero => simpa using fun hc => ha hc
      | succ j =>
        have := ih hk j (by omega)
        simpa using this

theorem replaceAll_length_le {pat repl : List Char} (hr : repl.length ≤ pat.length) :
    ∀ l : List Char, (replaceAll pat repl l).length ≤ l.length := by
  intro l
  induction l using replaceAll_induct pat repl with
  | case1 => simp [replaceAll_nil]
  | case2 a rest h ih =>
    rw [replaceAll_cons]
    simp only [if_pos h, List.length_append]
    have hple : pat.length ≤ (a :: rest).length := h.2.length_le
    simp only [List.length_drop] at ih ⊢
    omega
  | case3 a rest h ih =>
    rw [replaceAll_cons]
    simp only [if_neg h, List.length_cons]
    omega

theorem replaceAll_length_lt {pat repl : List Char} (hr : repl.length < pat.length)
    (hocc : pat <:+: l) : (replaceAll pat repl l).length < l.length := by
  induction l using replaceAll_induct pat repl with
  | case1 =>
    have : pat = [] := List.eq_nil_of_infix_nil hocc
    subst this
    simp at hr
  | case2 a rest h ih =>
    rw [replaceAll_cons]
    simp only [if_pos h, List.length_append]
    have hple : pat.length ≤ (a :: rest).length := h.2.length_le
    have hb := replaceAll_length_le (le_of_lt hr) ((a :: rest).drop pat.length)
    simp only [List.length_drop] at hb
    simp only [List.length_cons] at *
    omega
  | case3 a rest h ih =>
    rw [replaceAll_cons]
    simp only [if_neg h, List.length_cons]
    rcases List.infix_cons_iff.mp hocc with hpre | hinf
    · by_cases hpe : pat = []
      · subst hpe; simp at hr
      · exact absurd ⟨hpe, hpre⟩ h
    · have := ih hinf
      omega

theorem prefix_replaceAll_singleton {pat : List Char} {c : Char} :
    ∀ (l q : List Char), c ∉ q → q <+: replaceAll pat [c] l → q <+: l := by
  intro l
  induction l using replaceAll_induct pat [c] with
  | case1 =>
    intro q hc hq
    rw [replaceAll_nil] at hq
    simpa using List.prefix_nil.mp hq
  | case2 a rest h ih =>
    intro q hc hq
    rw [replaceAll_cons, if_pos h] at hq
    match q, hq with
    | [], _ => exact List.nil_prefix
    | b :: q, hq =>
      have hb : b = c := (List.cons_prefix_cons.mp hq).1
      exact absurd (hb ▸ List.mem_cons_self b q) hc
  | case3 a rest h ih =>
    intro q hc hq
    rw [replaceAll_cons, if_neg h] at hq
    match q, hq with
    | [], _ => exact List.nil_prefix
    | b :: q, hq =>
      obtain ⟨hb, hq2⟩ := List.cons_prefix_cons.mp hq
      subst hb
      have := ih q (fun hm => hc (List.mem_cons_of_mem _ hm)) hq2
      exact List.cons_prefix_cons.mpr ⟨rfl, this⟩

theorem infix_replaceAll_singleton {pat : List Char} {c : Char} :
    ∀ (l q : List Char), c ∉ q → q <:+: replaceAll pat [c] l → q <:+: l := by
  intro l
  induction l using replaceAll_induct pat [c] with
  | case1 =>
    intro q hc hq
    rw [replaceAll_nil] at hq
    simpa using List.eq_nil_of_infix_nil hq
  | case2 a rest h ih =>
    intro q hc hq
    rw [replaceAll_cons, if_pos h] at hq
    simp only [List.singleton_append] at hq
    rcases List.infix_cons_iff.mp hq with hpre | hinf
    · match q, hpre with
      | [], _ => exact List.nil_infix
      | b :: q, hpre =>
        have hb : b = c := (List.cons_prefix_cons.mp hpre).1
        exact absurd (hb ▸ List.mem_cons_self b q) hc
    · have := ih q hc hinf
      exact this.trans (List.drop_suffix pat.length (a :: rest)).isInfix
  | case3 a rest h ih =>
    intro q hc hq
    rw [replaceAll_cons, if_neg h] at hq
    rcases List.infix_cons_iff.mp hq with hpre | hinf
    · match q, hpre with
      | [], _ => exact List.nil_infix
      | b :: q, hpre =>
        obtain ⟨hb, hq2⟩ := List.cons_prefix_cons.mp hpre
        subst hb
        have := prefix_replaceAll_singleton rest q (fun hm => hc (List.mem_cons_of_mem _ hm)) hq2
        exact (List.cons_prefix_cons.mpr ⟨rfl, this⟩).isInfix
    · exact (ih q hc hinf).trans (List.infix_cons (List.infix_refl rest))

theorem not_infix_replaceAll_self {pat : List Char} {c : Char}
    (hc : c ∉ pat) (hp : pat ≠ []) :
    ∀ l : List Char, ¬ pat <:+: replaceAll pat [c] l := by
  intro l
  induction l using replaceAll_induct pat [c] with
  | case1 =>
    intro hq
    rw [replaceAll_nil] at hq
    exact hp (List.eq_nil_of_infix_nil hq)
  | case2 a rest h ih =>
    intro hq
    rw [replaceAll_cons, if_pos h] at hq
    simp only [List.singleton_append] at hq
    rcases List.infix_cons_iff.mp hq with hpre | hinf
    · match pat, hpre, hp, hc with
      | b :: p, hpre, _, hc =>
        have hb : b = c := (List.cons_prefix_cons.mp hpre).1
        exact hc (hb ▸ List.mem_cons_self b p)
    · exact ih hinf
  | case3 a rest h ih =>
    intro hq
    rw [replaceAll_cons, if_neg h] at hq
    rcases List.infix_cons_iff.mp hq with hpre | hinf
    · match pat, hpre, hp, hc, h with
      | b :: p, hpre, _, hc, h =>
        rcases List.cons_prefix_cons.mp hpre with ⟨rfl, hq2⟩
        have := prefix_replaceAll_singleton rest p (fun hm => hc (List.mem_cons_of_mem _ hm)) hq2
        exact h ⟨by simp, List.cons_prefix_cons.mpr ⟨rfl, this⟩⟩
    · exact ih hinf

theorem entity_occurs {l : List Char} {i e : Nat}
    (hf : findCharIdx? ';' (l.drop i) = some e) :
    ((l.drop i).take (e + 1)) <:+: l := by
  have h1 : ((l.drop i).take (e + 1)) <+: l.drop i := List.take_prefix _ _
  exact List.infix_iff_prefix_suffix.mpr ⟨l.drop i, h1, List.drop_suffix i l⟩

theorem entity_length {l : List Char} {i e : Nat}
    (hf : findCharIdx? ';' (l.drop i) = some e) :
    ((l.drop i).take (e + 1)).length = e + 1 := by
  have he := findCharIdx?_lt_length hf
  simp only [List.length_take]
  omega

theorem hexStep_decreases {l r : List Char} (h : hexStep l = .again r) :
    r.length < l.length := by
  unfold hexStep at h
  split at h
  · cases h
  · next i hs =>
    split at h
    · cases h
    · next e hf =>
      cases h
      refine replaceAll_length_lt ?_ (entity_occurs hf)
      have hpre : patAmpHashX <+: l.drop i := findSub?_prefix_drop hs
      have hsemi3 : 3 ≤ e := by
        by_contra hlt
        push_neg at hlt
        have hg := findCharIdx?_get hf
        have : (l.drop i).get? e = patAmpHashX.get? e := by
          rcases hpre with ⟨t, ht⟩
          rw [← ht, List.get?_append]
          simp only [patAmpHashX, List.length_cons, List.length_nil]
          omega
        rw [hg] at this
        interval_cases e <;> simp [patAmpHashX] at this
      have hel : ((l.drop i).take (e + 1)).length = e + 1 := entity_length hf
      have : (hexEntityRepl (((l.drop i).take (e + 1)).drop 3).dropLast).length ≤ 1 := by
        unfold hexEntityRepl
        split <;> (try split) <;> simp
      omega

theorem sweepLoop_total_of_decreasing {step : List Char → SweepOut}
    (hdec : ∀ l r, step l = .again r → r.length < l.length) :
    ∀ (f : Nat) (l : List Char), l.length < f → (sweepLoop step f l).isSome := by
  intro f
  induction f with
  | zero => intro l h; omega
  | succ f ih =>
    intro l h
    unfold sweepLoop
    cases hst : step l with
    | done r => simp
    | again r =>
      have := hdec l r hst
      exact ih r (by omega)

theorem hexSweep_eq (l : List Char) :
    sweepLoop hexStep (l.length + 1) l = some (hexSweep l) := by
  have := sweepLoop_total_of_decreasing (fun a b h => hexStep_decreases h)
    (l.length + 1) l (by omega)
  rcases Option.isSome_iff_exists.mp this with ⟨r, hr⟩
  simp [hexSweep, hr]

theorem decStep_again_cases {l r : List Char} (h : decStep l = .again r) :
    r = l ∨ r.length < l.length := by
  unfold decStep at h
  split at h
  · cases h
  · next i hs =>
    split at h
    · split at h
      · split at h
        · cases h
        · cases h; exact Or.inl rfl
      · cases h
    · split at h
      · cases h
      · next e hf =>
        cases h
        refine Or.inr (replaceAll_length_lt ?_ (entity_occurs hf))
        have hpre : patAmpHash <+: l.drop i := findSub?_prefix_drop hs
        have hsemi2 : 2 ≤ e := by
          by_contra hlt
          push_neg at hlt
          have hg := findCharIdx?_get hf
          have : (l.drop i).get? e = patAmpHash.get? e := by
            rcases hpre with ⟨t, ht⟩
            rw [← ht, List.get?_append]
            simp only [patAmpHash, List.length_cons, List.length_nil]
            omega
          rw [hg] at this
          interval_cases e <;> simp [patAmpHash] at this
        have hel : ((l.drop i).take (e + 1)).length = e + 1 := entity_length hf
        have : (decEntityRepl (((l.drop i).take (e + 1)).drop 2).dropLast).length ≤ 1 := by
          unfold decEntityRepl
          split <;> (try split) <;> simp
        omega

theorem sweepLoop_some_mono {step : List Char → SweepOut} :
    ∀ {f : Nat} {l r : List Char}, sweepLoop step f l = some r →
      ∀ g, f ≤ g → sweepLoop step g l = some r := by
  intro f
  induction f with
  | zero => intro l r h; simp [sweepLoop] at h
  | succ f ih =>
    intro l r h g hg
    match g, hg with
    | g + 1, hg =>
      unfold sweepLoop at h ⊢
      cases hst : step l with
      | done x => rw [hst] at h; exact h
      | again x =>
        rw [hst] at h
        exact ih h g (by omega)

theorem decLoop_none_mono_aux :
    ∀ (n : Nat) (l : List Char), l.length = n →
      sweepLoop decStep (l.length + 1) l = none →
      ∀ f, sweepLoop decStep f l = none := by
  intro n
  induction n using Nat.strong_induction_on with
  | _ n ih =>
    intro l hn h f
    cases f with
    | zero => rfl
    | succ f =>
      unfold sweepLoop at h ⊢
      cases hst : decStep l with
      | done r => rw [hst] at h; cases h
      | again r =>
        rw [hst] at h
        rcases decStep_again_cases hst with rfl | hlt
        · -- the string did not change: the loop repeats this exact
          -- iteration forever
          clear h ih
          induction f with
          | zero => rfl
          | succ f ihf =>
            unfold sweepLoop
            rw [hst]
            exact ihf
        · have h2 : sweepLoop decStep l.length r = none := h
          have hr : sweepLoop decStep (r.length + 1) r = none := by
            by_contra hc
            rcases Option.ne_none_iff_exists'.mp hc with ⟨x, hx⟩
            have := sweepLoop_some_mono hx l.length (by omega)
            rw [this] at h2
            cases h2
          exact ih r.length (by omega) r rfl hr f

/-- Adequacy of the fuel choice in `decode_unicode_entities`: if the fuel
`l.length + 1` runs out, the Rust decimal loop genuinely diverges — no
amount of fuel completes it. -/
theorem decLoop_none_mono (l : List Char)
    (h : sweepLoop decStep (l.length + 1) l = none) :
    ∀ f, sweepLoop decStep f l = none :=
  decLoop_none_mono_aux l.length l rfl h

theorem mapGet?_insert_self (m : List (String × String)) (k v : String) :
    mapGet? (mapInsert m k v) k = some v := by
  induction m with
  | nil => simp [mapInsert, mapGet?]
  | cons pr rest ih =>
    obtain ⟨k2, v2⟩ := pr
    by_cases hk : k2 = k
    · simp [mapInsert, mapGet?, hk]
    · simp [mapInsert, mapGet?, hk, ih]

theorem set_article_field_source (a : NewsArticle) (t v : String) :
    (set_article_field a t v).source = a.source := by
  unfold set_article_field
  dsimp only
  split_ifs <;>
    first
    | rfl
    | (cases a.title <;> rfl)
    | (cases a.link <;> rfl)
    | (cases a.description <;> rfl)
    | (cases mapGet? a.extra_fields t <;> rfl)

theorem foldSpan_snoc (client_type : String) (s : NewsArticle × String)
    (acc : List XEvent) (e : XEvent) :
    foldSpan client_type s (acc ++ [e]) =
      match foldSpan client_type s acc with
      | none => none
      | some s2 => buildStep client_type s2 e := by
  induction acc generalizing s with
  | nil =>
    simp only [List.nil_append, foldSpan]
    cases buildStep client_type s e <;> rfl
  | cons e2 rest ih =>
    simp only [List.cons_append, foldSpan]
    cases buildStep client_type s e2 with
    | none => rfl
    | some s2 => exact ih s2

theorem buildAll_length (client_type : String) :
    ∀ (spans : List (List XEvent)) (built : List NewsArticle),
      buildAll client_type spans = some built →
      built.length = spans.length := by
  intro spans
  induction spans with
  | nil => intro built h; cases h; rfl
  | cons s rest ih =>
    intro built h
    unfold buildAll at h
    cases hb : buildFromSpan client_type s with
    | none => rw [hb] at h; cases h
    | some a =>
      rw [hb] at h
      cases hr : buildAll client_type rest with
      | none => rw [hr] at h; cases h
      | some l =>
        rw [hr] at h
        cases h
        simp [ih l hr]

theorem rfindIdx?_eq_none {c : Char} :
    ∀ {l : List Char}, rfindIdx? c l = none → c ∉ l := by
  intro l
  induction l with
  | nil => intro _; simp
  | cons a rest ih =>
    intro h
    simp only [rfindIdx?] at h
    cases hr : rfindIdx? c rest with
    | some j => simp [hr] at h
    | none =>
      simp only [hr] at h
      by_cases hac : a = c
      · simp [hac] at h
      · simp only [List.mem_cons]
        rintro (rfl | hm)
        · exact hac rfl
        · exact ih hr hm

theorem rfindIdx?_split {c : Char} :
    ∀ {l : List Char} {i : Nat}, rfindIdx? c l = some i →
      ∃ p, l = p ++ c :: l.drop (i + 1) ∧ c ∉ l.drop (i + 1) := by
  intro l
  induction l with
  | nil => intro i h; simp [rfindIdx?] at h
  | cons a rest ih =>
    intro i h
    simp only [rfindIdx?] at h
    cases hr : rfindIdx? c rest with
    | some j =>
      simp only [hr] at h
      injection h with h2
      subst h2
      obtain ⟨p, hp, hnm⟩ := ih hr
      refine ⟨a :: p, ?_, ?_⟩
      · simpa [List.drop_succ_cons] using hp
      · simpa [List.drop_succ_cons] using hnm
    | none =>
      simp only [hr] at h
      by_cases hac : a = c
      · simp only [hac, if_pos] at h
        injection h with h2
        subst h2
        subst hac
        exact ⟨[], by simp, rfindIdx?_eq_none hr⟩
      · simp [hac] at h

theorem foldl_replaceStr_fixed (t : String) :
    ∀ nss : List String, (∀ ns ∈ nss, replaceStr t ns "" = t) →
      nss.foldl (fun acc ns => replaceStr acc ns "") t = t := by
  intro nss
  induction nss with
  | nil => intro _; rfl
  | cons ns rest ih =>
    intro h
    have h1 : replaceStr t ns "" = t := h ns (List.mem_cons_self ns rest)
    simp only [List.foldl_cons, h1]
    exact ih fun q hq => h q (List.mem_cons_of_mem ns hq)

theorem ns_replace_dc (ct : String) :
    ∀ ns ∈ namespacesFor ct, replaceStr "dc:creator" ns "" = "dc:creator" := by
  intro ns h
  unfold namespacesFor at h
  split_ifs at h <;> fin_cases h <;> decide

theorem preprocess_toList (content : String) :
    (preprocess_unicode_entities content).toList
      = smartQuoteTable.foldl
          (fun acc pr => replaceAll pr.1.toList [pr.2] acc) content.toList := by
  rfl

theorem fold_absent (p : List Char) :
    ∀ (tbl : List (String × Char)) (s : List Char),
      (∀ pr ∈ tbl, pr.2 ∉ p) →
      ((∃ pr ∈ tbl, pr.1.toList = p ∧ p ≠ []) ∨ ¬ p <:+: s) →
      ¬ p <:+: tbl.foldl (fun acc pr => replaceAll pr.1.toList [pr.2] acc) s := by
  intro tbl
  induction tbl with
  | nil =>
    intro s hc hd
    rcases hd with ⟨pr, hpr, _⟩ | h
    · cases hpr
    · simpa using h
  | cons pr rest ih =>
    intro s hc hd
    simp only [List.foldl_cons]
    apply ih _ (fun q hq => hc q (List.mem_cons_of_mem pr hq))
    rcases hd with ⟨q, hq, hqe, hne⟩ | habs
    · rcases List.mem_cons.mp hq with rfl | hq2
      · right
        rw [← hqe] at hne ⊢
        exact not_infix_replaceAll_self
          (by rw [hqe]; exact hc q (List.mem_cons_self q rest)) hne s
      · exact Or.inl ⟨q, hq2, hqe, hne⟩
    · right
      intro h
      exact habs (infix_replaceAll_singleton s p
        (hc pr (List.mem_cons_self pr rest)) h)

/-- C3: whenever the tokenizer stream ends in a syntax error and
`parse_response` completes, the result is exactly the typed error
`FanError::XmlParsing` wrapping the underlying tokenizer error — never a
partial or empty article list, whatever articles had accumulated from the
events before the error. -/
theorem parse_error_is_typed_xml_failure (client_type : String)
    (events : List XEvent) (e : XmlError)
    (r : Except FanError (List NewsArticle))
    (h : parse_response client_type events (some e) = some r) :
    r = Except.error (FanError.xmlParsing e) := by
  unfold parse_response at h
  cases hr : runEvents client_type initState events with
  | none => rw [hr] at h; cases h
  | some st =>
    rw [hr] at h
    cases h
    rfl

/-- Witness for C3 at a concrete input: a stream that accumulated a full
item still yields the typed error. -/
theorem parse_error_is_typed_xml_failure_witness :
    (Except.error (FanError.xmlParsing (XmlError.mk "unclosed tag")) :
        Except FanError (List NewsArticle))
      = Except.error (FanError.xmlParsing (XmlError.mk "unclosed tag")) :=
  parse_error_is_typed_xml_failure "wsj"
    [XEvent.start "item", XEvent.start "title", XEvent.text "x",
     XEvent.close "title", XEvent.close "item"]
    (XmlError.mk "unclosed tag")
    (Except.error (FanError.xmlParsing (XmlError.mk "unclosed tag")))
    (by decide)

/-- C10: item detection is case-sensitive — an element opens/closes an
article only when its clean tag name is exactly the lowercase `"item"` —
while field dispatch is case-insensitive. A document spelled
`<ITEM>...</ITEM>` yields no articles, while `<TITLE>` inside a lowercase
`<item>` still populates the title field. -/
theorem item_detection_case_sensitive :
    clean_tag_name "wsj" "ITEM" = "ITEM"
    ∧ parse_response "wsj"
        [XEvent.start "ITEM", XEvent.start "TITLE", XEvent.text "x",
         XEvent.close "TITLE", XEvent.close "ITEM"] none
      = some (Except.ok [])
    ∧ parse_response "wsj"
        [XEvent.start "item", XEvent.start "TITLE", XEvent.text "x",
         XEvent.close "TITLE", XEvent.close "item"] none
      = some (Except.ok [{ NewsArticle.new with title := some "x" }]) :=
  ⟨by decide, by decide, by decide⟩

/-- C6 (refuting the termination claim): on the input `"&#x&#"` — which
survives the hex sweep unchanged because no semicolon follows the `"&#x"`
— the decimal sweep of `decode_unicode_entities` diverges: the first
`"&#"` is hex-prefixed, another `"&#"` follows, and the skip branch
`continue`s without modifying the string, so the very same iteration
repeats forever. No fuel completes the loop, and the model of
`decode_unicode_entities` reports divergence. -/
theorem decode_unicode_entities_diverges :
    hexSweep ("&#x&#".toList) = "&#x&#".toList
    ∧ (∀ f, sweepLoop decStep f ("&#x&#".toList) = none)
    ∧ decode_unicode_entities "&#x&#" = none := by
  have hstep : decStep ("&#x&#".toList) = SweepOut.again ("&#x&#".toList) := by
    decide
  have hall : ∀ f, sweepLoop decStep f ("&#x&#".toList) = none := by
    intro f
    induction f with
    | zero => rfl
    | succ f ih =>
      unfold sweepLoop
      rw [hstep]
      exact ih
  refine ⟨by decide, hall, ?_⟩
  unfold decode_unicode_entities
  show (sweepLoop decStep ((hexSweep ("&#x&#".toList)).length + 1)
      (hexSweep ("&#x&#".toList))).map (fun l => String.mk l) = none
  have hhex : hexSweep ("&#x&#".toList) = "&#x&#".toList := by decide
  rw [hhex, hall]
  rfl

/-- C8: a topic key missing from the CNBC topic table makes
`build_topic_url` return the typed `FanError::InvalidUrl` immediately, and
the `fetch_topic` sequencing performs the lookup strictly before the
network call: on lookup failure the error propagates with an empty fetch
trace — no URL is ever fetched — whatever the network behaviour would have
been; the last conjunct states the same lookup-before-fetch contract for
any URL builder. -/
theorem invalid_topic_errors_before_fetch (topic : String)
    (h : natGet? cnbc_topic_categories topic = none) :
    cnbc_build_topic_url topic
      = Except.error (FanError.invalidUrl ("Invalid topic: " ++ topic))
    ∧ (∀ fetch : String → Except FanError (List NewsArticle),
        fetch_topic_trace cnbc_build_topic_url fetch topic
          = (Except.error (FanError.invalidUrl ("Invalid topic: " ++ topic)),
             []))
    ∧ (∀ (build : String → Except FanError String) (e : FanError)
        (fetch : String → Except FanError (List NewsArticle)),
        build topic = Except.error e →
        fetch_topic_trace build fetch topic = (Except.error e, [])) := by
  have h1 : cnbc_build_topic_url topic
      = Except.error (FanError.invalidUrl ("Invalid topic: " ++ topic)) := by
    unfold cnbc_build_topic_url
    rw [h]
  refine ⟨h1, fun fetch => ?_, fun build e fetch hb => ?_⟩
  · unfold fetch_topic_trace
    rw [h1]
  · unfold fetch_topic_trace
    rw [hb]

/-- Witness for C8 at a concrete missing topic and a concrete fetcher. -/
theorem invalid_topic_errors_before_fetch_witness :
    fetch_topic_trace cnbc_build_topic_url (fun _ => Except.ok []) "sports"
      = (Except.error (FanError.invalidUrl ("Invalid topic: " ++ "sports")),
         []) :=
  (invalid_topic_errors_before_fetch "sports" (by decide)).2.1
    (fun _ => Except.ok [])

/-- C5 counterexample: the numeric-reference sweep does NOT apply equally
to text and CDATA events. A CDATA payload holding `"&#x2019;"` inside
`<title>` is routed to the article verbatim, although
`decode_unicode_entities` would have rewritten it, so the claimed
equal treatment fails at this concrete input. -/
theorem cdata_not_swept_cex :
    parse_response "wsj"
      [XEvent.start "item", XEvent.start "title", XEvent.cdata "&#x2019;",
       XEvent.close "title", XEvent.close "item"] none
      = some (Except.ok
          [{ NewsArticle.new with title := some "&#x2019;" }])
    ∧ decode_unicode_entities "&#x2019;" = some (String.mk [Char.ofNat 8217])
    ∧ ("&#x2019;" : String) ≠ String.mk [Char.ofNat 8217] :=
  ⟨by decide, by decide, by decide⟩

/-- C5 as amended: inside an item with a non-empty clean tag active, a
text payload is passed through `decode_unicode_entities` (diverging when
the sweep does) before field dispatch, while a CDATA payload is routed to
field dispatch verbatim — no entity decoding and no numeric-reference
sweep. -/
theorem text_swept_cdata_verbatim (client_type : String) (st : ParseState)
    (payload : String) (h1 : st.in_item = true) (h2 : st.current_tag ≠ "") :
    procEvent client_type st (XEvent.text payload)
      = (decode_unicode_entities payload).map (fun decoded =>
          { st with current_article :=
              set_article_field st.current_article st.current_tag decoded })
    ∧ procEvent client_type st (XEvent.cdata payload)
      = some { st with current_article :=
          set_article_field st.current_article st.current_tag payload } := by
  constructor
  · simp only [procEvent]
    rw [if_pos ⟨h1, h2⟩]
    cases decode_unicode_entities payload <;> rfl
  · simp only [procEvent]
    rw [if_pos ⟨h1, h2⟩]

/-- Witness for the amended C5 at a concrete state and payload. -/
theorem text_swept_cdata_verbatim_witness :
    procEvent "wsj" ⟨[], NewsArticle.new, "title", true⟩ (XEvent.text "a")
      = (decode_unicode_entities "a").map (fun decoded =>
          ⟨[], set_article_field NewsArticle.new "title" decoded,
            "title", true⟩)
    ∧ procEvent "wsj" ⟨[], NewsArticle.new, "title", true⟩ (XEvent.cdata "a")
      = some ⟨[], set_article_field NewsArticle.new "title" "a",
          "title", true⟩ :=
  text_swept_cdata_verbatim "wsj" ⟨[], NewsArticle.new, "title", true⟩ "a"
    rfl (by decide)

theorem procEvent_source_pres (client_type : String) (st st1 : ParseState)
    (e : XEvent)
    (h1 : ∀ a ∈ st.articles, a.source = none)
    (h2 : st.current_article.source = none)
    (hp : procEvent client_type st e = some st1) :
    (∀ a ∈ st1.articles, a.source = none)
      ∧ st1.current_article.source = none := by
  cases e with
  | start tag =>
    simp only [procEvent] at hp
    split at hp <;> (cases hp; exact ⟨h1, by first | rfl | exact h2⟩)
  | text payload =>
    simp only [procEvent] at hp
    split at hp
    · cases hd : decode_unicode_entities payload with
      | none => rw [hd] at hp; cases hp
      | some d =>
        rw [hd] at hp
        cases hp
        exact ⟨h1, by rw [set_article_field_source]; exact h2⟩
    · cases hp
      exact ⟨h1, h2⟩
  | cdata payload =>
    simp only [procEvent] at hp
    split at hp <;> cases hp
    · exact ⟨h1, by rw [set_article_field_source]; exact h2⟩
    · exact ⟨h1, h2⟩
  | close tag =>
    simp only [procEvent] at hp
    split at hp <;> cases hp
    · refine ⟨?_, h2⟩
      intro a ha
      rcases List.mem_append.mp ha with hm | hm
      · exact h1 a hm
      · rw [List.mem_singleton.mp hm]
        exact h2
    · exact ⟨h1, h2⟩
  | other =>
    cases hp
    exact ⟨h1, h2⟩

theorem runEvents_source_none (client_type : String) :
    ∀ (events : List XEvent) (st st2 : ParseState),
      (∀ a ∈ st.articles, a.source = none) →
      st.current_article.source = none →
      runEvents client_type st events = some st2 →
      ∀ a ∈ st2.articles, a.source = none := by
  intro events
  induction events with
  | nil =>
    intro st st2 h1 _ h
    cases h
    exact h1
  | cons e rest ih =>
    intro st st2 h1 h2 h
    unfold runEvents at h
    cases hp : procEvent client_type st e with
    | none => rw [hp] at h; cases h
    | some st1 =>
      rw [hp] at h
      obtain ⟨g1, g2⟩ := procEvent_source_pres client_type st st1 e h1 h2 hp
      exact ih st1 st2 g1 g2 h

/-- C9: the parser never assigns an article source — every article of a
successful parse has `source = none` — and the orchestration layer of
`fetch_feed_by_url` then stamps `source` with the source name on every
article unconditionally, so the stamped list is exactly the parsed list
with `source` overwritten everywhere. -/
theorem parser_leaves_source_unset_orchestration_stamps
    (client_type : String) (events : List XEvent) (term : Option XmlError)
    (arts : List NewsArticle)
    (h : parse_response client_type events term = some (Except.ok arts)) :
    (∀ a ∈ arts, a.source = none)
    ∧ (∀ name : String,
        (∀ a ∈ stamp_source name arts, a.source = some name)
        ∧ fetch_feed_by_url name client_type events term
            = some (Except.ok (stamp_source name arts))) := by
  have hnone : ∀ a ∈ arts, a.source = none := by
    unfold parse_response at h
    cases hr : runEvents client_type initState events with
    | none => rw [hr] at h; cases h
    | some st =>
      rw [hr] at h
      cases term with
      | some e => cases h
      | none =>
        cases h
        exact runEvents_source_none client_type events initState st
          (by intro a ha; cases ha) rfl hr
  refine ⟨hnone, fun name => ⟨?_, ?_⟩⟩
  · intro a ha
    unfold stamp_source at ha
    rcases List.mem_map.mp ha with ⟨b, _, rfl⟩
    rfl
  · unfold fetch_feed_by_url
    rw [h]
    rfl

/-- Witness for C9 at a concrete parse with one article. -/
theorem parser_leaves_source_unset_orchestration_stamps_witness :
    (∀ a ∈ [{ NewsArticle.new with title := some "x" }], a.source = none)
    ∧ (∀ name : String,
        (∀ a ∈ stamp_source name [{ NewsArticle.new with title := some "x" }],
          a.source = some name)
        ∧ fetch_feed_by_url name "wsj"
            [XEvent.start "item", XEvent.start "title", XEvent.text "x",
             XEvent.close "title", XEvent.close "item"] none
            = some (Except.ok
                (stamp_source name
                  [{ NewsArticle.new with title := some "x" }]))) :=
  parser_leaves_source_unset_orchestration_stamps "wsj"
    [XEvent.start "item", XEvent.start "title", XEvent.text "x",
     XEvent.close "title", XEvent.close "item"] none
    [{ NewsArticle.new with title := some "x" }] (by decide)

/-- C1: field dispatch on a text payload routed inside an item matches the
lowercased clean tag name: `title`, `link` and `description` append to an
existing value (set when absent); `pubdate`, `guid`, `category` and both
`author` and `creator` overwrite; any other tag upserts into
`extra_fields` under the original-case tag name, appending when the key is
already present. -/
theorem field_dispatch_rules (a : NewsArticle) (tag value : String) :
    (lowerAscii tag = "title" →
      (set_article_field a tag value).title
        = some ((a.title.getD "") ++ value))
    ∧ (lowerAscii tag = "link" →
      (set_article_field a tag value).link
        = some ((a.link.getD "") ++ value))
    ∧ (lowerAscii tag = "description" →
      (set_article_field a tag value).description
        = some ((a.description.getD "") ++ value))
    ∧ (lowerAscii tag = "pubdate" →
      (set_article_field a tag value).pub_date = some value)
    ∧ (lowerAscii tag = "guid" →
      (set_article_field a tag value).guid = some value)
    ∧ (lowerAscii tag = "category" →
      (set_article_field a tag value).category = some value)
    ∧ (lowerAscii tag = "author" ∨ lowerAscii tag = "creator" →
      (set_article_field a tag value).author = some value)
    ∧ (lowerAscii tag ≠ "title" → lowerAscii tag ≠ "link" →
       lowerAscii tag ≠ "description" → lowerAscii tag ≠ "pubdate" →
       lowerAscii tag ≠ "guid" → lowerAscii tag ≠ "category" →
       lowerAscii tag ≠ "author" → lowerAscii tag ≠ "creator" →
      mapGet? (set_article_field a tag value).extra_fields tag
        = some (((mapGet? a.extra_fields tag).getD "") ++ value)) := by
  refine ⟨?_, ?_, ?_, ?_, ?_, ?_, ?_, ?_⟩
  · intro h
    cases hT : a.title <;>
      simp [set_article_field, h, hT, Option.getD]
  · intro h
    cases hT : a.link <;>
      simp [set_article_field, h, hT, Option.getD]
  · intro h
    cases hT : a.description <;>
      simp [set_article_field, h, hT, Option.getD]
  · intro h
    simp [set_article_field, h]
  · intro h
    simp [set_article_field, h]
  · intro h
    simp [set_article_field, h]
  · rintro (h | h) <;> simp [set_article_field, h]
  · intro n1 n2 n3 n4 n5 n6 n7 n8
    cases hm : mapGet? a.extra_fields tag <;>
      simp [set_article_field, n1, n2, n3, n4, n5, n6, n7, n8, hm,
        Option.getD, mapGet?_insert_self]

/-- Witness for C1: one concrete instance of each dispatch family —
append on an existing title, overwrite of a pub date, and an upsert-append
into the extension map (dispatch tag `"pubDate"` exercised
case-insensitively). -/
theorem field_dispatch_rules_witness :
    (set_article_field
        { NewsArticle.new with title := some "He" } "Title" "llo").title
      = some (("He" : String) ++ "llo")
    ∧ (set_article_field
        { NewsArticle.new with pub_date := some "old" } "pubDate" "new").pub_date
      = some "new"
    ∧ mapGet? (set_article_field
        { NewsArticle.new with extra_fields := [("foo", "ba")] }
        "foo" "r").extra_fields "foo"
      = some (("ba" : String) ++ "r") := by
  refine ⟨?_, ?_, ?_⟩
  · have := (field_dispatch_rules
      { NewsArticle.new with title := some "He" } "Title" "llo").1 (by decide)
    simpa using this
  · exact (field_dispatch_rules
      { NewsArticle.new with pub_date := some "old" } "pubDate" "new").2.2.2.1
      (by decide)
  · have := (field_dispatch_rules
      { NewsArticle.new with extra_fields := [("foo", "ba")] } "foo"
      "r").2.2.2.2.2.2.2 (by decide) (by decide) (by decide) (by decide)
      (by decide) (by decide) (by decide) (by decide)
    simpa using this

theorem toList_mk (l : List Char) : (String.mk l).toList = l := rfl

/-- C4: tag cleaning first deletes every occurrence of each namespace URI
configured for the parser's source identifier (a source identifier outside
the hard-coded table has the empty strip-list, so only colon stripping
applies), then, when a colon remains, keeps exactly the portion after the
last colon — the kept portion is colon-free and everything before it ends
in a colon; without a remaining colon the stripped name is kept whole. In
particular `dc:creator` normalizes to `creator` for every source
identifier. -/
theorem clean_tag_name_normalization (ct tag : String) :
    (ct ≠ "wsj" → ct ≠ "cnbc" → ct ≠ "nasdaq" → ct ≠ "market_watch" →
     ct ≠ "sp_global" → ct ≠ "seeking_alpha" → ct ≠ "cnn_finance" →
     ct ≠ "yahoo" →
      namespacesFor ct = [] ∧ stripNamespaces ct tag = tag)
    ∧ (':' ∉ (stripNamespaces ct tag).toList →
        clean_tag_name ct tag = stripNamespaces ct tag)
    ∧ (':' ∈ (stripNamespaces ct tag).toList →
        ∃ p, (stripNamespaces ct tag).toList
            = p ++ ':' :: (clean_tag_name ct tag).toList
          ∧ ':' ∉ (clean_tag_name ct tag).toList)
    ∧ clean_tag_name ct "dc:creator" = "creator" := by
  refine ⟨?_, ?_, ?_, ?_⟩
  · intro h1 h2 h3 h4 h5 h6 h7 h8
    have hns : namespacesFor ct = [] := by
      unfold namespacesFor
      split_ifs <;> first | rfl | contradiction
    refine ⟨hns, ?_⟩
    unfold stripNamespaces
    rw [hns]
    rfl
  · intro h
    unfold clean_tag_name
    cases hr : rfindIdx? ':' (stripNamespaces ct tag).toList with
    | none => rfl
    | some i =>
      obtain ⟨p, hp, _⟩ := rfindIdx?_split hr
      exact absurd (by rw [hp]; simp) h
  · intro h
    unfold clean_tag_name
    cases hr : rfindIdx? ':' (stripNamespaces ct tag).toList with
    | none => exact absurd h (rfindIdx?_eq_none hr)
    | some i =>
      obtain ⟨p, hp, hnm⟩ := rfindIdx?_split hr
      exact ⟨p, by rw [toList_mk]; exact hp, by rw [toList_mk]; exact hnm⟩
  · have hs : stripNamespaces ct "dc:creator" = "dc:creator" :=
      foldl_replaceStr_fixed "dc:creator" (namespacesFor ct) (ns_replace_dc ct)
    unfold clean_tag_name
    rw [hs]
    decide

/-- Witness for C4: an unknown source identifier gets the empty
strip-list, and the colon-splitting clause at a concrete prefixed tag. -/
theorem clean_tag_name_normalization_witness :
    (namespacesFor "generic" = []
      ∧ stripNamespaces "generic" "media:content" = "media:content")
    ∧ (∃ p, (stripNamespaces "generic" "media:content").toList
          = p ++ ':' :: (clean_tag_name "generic" "media:content").toList
        ∧ ':' ∉ (clean_tag_name "generic" "media:content").toList) :=
  ⟨(clean_tag_name_normalization "generic" "media:content").1
      (by decide) (by decide) (by decide) (by decide) (by decide)
      (by decide) (by decide) (by decide),
    (clean_tag_name_normalization "generic" "media:content").2.2.1
      (by decide)⟩

/-- C7: preprocessing eliminates every occurrence of each of the eight
smart-quote numeric character references from the whole document — none of
the eight entity strings survives anywhere in the output, including
occurrences only formed while replacing — each single reference maps to
its plain ASCII quote character, and the `don&#8217;t`-in-a-title example
yields a literal apostrophe inside one contiguous document fragment before
tokenization. -/
theorem smart_quote_preprocessing (content : String) :
    (∀ pr ∈ smartQuoteTable,
      ¬ (pr.1.toList <:+: (preprocess_unicode_entities content).toList))
    ∧ (∀ pr ∈ smartQuoteTable,
        preprocess_unicode_entities pr.1 = String.mk [pr.2])
    ∧ preprocess_unicode_entities "<title>don&#8217;t</title>"
        = String.mk ("<title>don".toList ++ apos :: "t</title>".toList) := by
  refine ⟨?_, by decide, by decide⟩
  intro pr hpr
  rw [preprocess_toList]
  fin_cases hpr <;>
    exact fold_absent _ smartQuoteTable _ (by decide) (Or.inl (by decide))

/-- Witness for C7 at a concrete document and the first table entry. -/
theorem smart_quote_preprocessing_witness :
    ¬ (("&#x2018;" : String).toList <:+:
        (preprocess_unicode_entities "a&#x2018;b").toList) :=
  (smart_quote_preprocessing "a&#x2018;b").1 ("&#x2018;", apos)
    (by decide)

theorem runEvents_spans (client_type : String) :
    ∀ (events : List XEvent) (st : ParseState) (acc? : Option (List XEvent))
      (st2 : ParseState),
      spanRel client_type st acc? →
      runEvents client_type st events = some st2 →
      ∃ built,
        buildAll client_type (spansAux client_type events acc?) = some built
        ∧ st2.articles = st.articles ++ built := by
  intro events
  induction events with
  | nil =>
    intro st acc? st2 _ h
    cases h
    exact ⟨[], rfl, by simp⟩
  | cons e rest ih =>
    intro st acc? st2 hrel h
    unfold runEvents at h
    cases hp : procEvent client_type st e with
    | none => rw [hp] at h; cases h
    | some st1 =>
      rw [hp] at h
      replace h : runEvents client_type st1 rest = some st2 := h
      cases acc? with
      | none =>
        have hin : st.in_item = false := hrel
        cases e with
        | start tag =>
          simp only [procEvent] at hp
          by_cases hit : clean_tag_name client_type tag = "item"
          · rw [if_pos hit] at hp
            cases hp
            obtain ⟨built, hb, ha⟩ := ih _ (some []) st2
              (by exact ⟨rfl, by simp [foldSpan, hit]⟩) h
            refine ⟨built, ?_, ha⟩
            simpa [spansAux, isItemStart, hit] using hb
          · rw [if_neg hit] at hp
            cases hp
            obtain ⟨built, hb, ha⟩ := ih _ none st2 (by exact hin) h
            refine ⟨built, ?_, ha⟩
            simpa [spansAux, isItemStart, hit] using hb
        | text payload =>
          simp only [procEvent] at hp
          rw [if_neg (by simp [hin])] at hp
          cases hp
          obtain ⟨built, hb, ha⟩ := ih _ none st2 (by exact hin) h
          refine ⟨built, ?_, ha⟩
          simpa [spansAux, isItemStart] using hb
        | cdata payload =>
          simp only [procEvent] at hp
          rw [if_neg (by simp [hin])] at hp
          cases hp
          obtain ⟨built, hb, ha⟩ := ih _ none st2 (by exact hin) h
          refine ⟨built, ?_, ha⟩
          simpa [spansAux, isItemStart] using hb
        | close tag =>
          simp only [procEvent] at hp
          rw [if_neg (by simp [hin])] at hp
          cases hp
          obtain ⟨built, hb, ha⟩ := ih _ none st2 (by exact hin) h
          refine ⟨built, ?_, ha⟩
          simpa [spansAux, isItemStart] using hb
        | other =>
          simp only [procEvent] at hp
          cases hp
          obtain ⟨built, hb, ha⟩ := ih _ none st2 (by exact hin) h
          refine ⟨built, ?_, ha⟩
          simpa [spansAux, isItemStart] using hb
      | some acc =>
        obtain ⟨hin, hfold⟩ := hrel
        cases e with
        | start tag =>
          simp only [procEvent] at hp
          by_cases hit : clean_tag_name client_type tag = "item"
          · rw [if_pos hit] at hp
            cases hp
            obtain ⟨built, hb, ha⟩ := ih _ (some []) st2
              (by exact ⟨rfl, by simp [foldSpan, hit]⟩) h
            refine ⟨built, ?_, ha⟩
            simpa [spansAux, isItemStart, hit] using hb
          · rw [if_neg hit] at hp
            cases hp
            obtain ⟨built, hb, ha⟩ := ih _ (some (acc ++ [XEvent.start tag]))
              st2 (by exact ⟨hin, by rw [foldSpan_snoc, hfold]; exact rfl⟩) h
            refine ⟨built, ?_, ha⟩
            simpa [spansAux, isItemStart, isItemClose, hit] using hb
        | text payload =>
          simp only [procEvent] at hp
          by_cases htag : st.current_tag ≠ ""
          · rw [if_pos ⟨hin, htag⟩] at hp
            cases hd : decode_unicode_entities payload with
            | none => rw [hd] at hp; cases hp
            | some d =>
              rw [hd] at hp
              cases hp
              obtain ⟨built, hb, ha⟩ := ih _
                (some (acc ++ [XEvent.text payload])) st2
                (by exact ⟨hin, by
                  rw [foldSpan_snoc, hfold]
                  show buildStep client_type
                    (st.current_article, st.current_tag)
                    (XEvent.text payload) = _
                  simp [buildStep, htag, hd]⟩) h
              refine ⟨built, ?_, ha⟩
              simpa [spansAux, isItemStart, isItemClose] using hb
          · rw [if_neg (fun hc => htag hc.2)] at hp
            cases hp
            obtain ⟨built, hb, ha⟩ := ih _
              (some (acc ++ [XEvent.text payload])) st2
              (by exact ⟨hin, by
                rw [foldSpan_snoc, hfold]
                show buildStep client_type
                  (st.current_article, st.current_tag)
                  (XEvent.text payload) = _
                simp [buildStep, htag]⟩) h
            refine ⟨built, ?_, ha⟩
            simpa [spansAux, isItemStart, isItemClose] using hb
        | cdata payload =>
          simp only [procEvent] at hp
          by_cases htag : st.current_tag ≠ ""
          · rw [if_pos ⟨hin, htag⟩] at hp
            cases hp
            obtain ⟨built, hb, ha⟩ := ih _
              (some (acc ++ [XEvent.cdata payload])) st2
              (by exact ⟨hin, by
                rw [foldSpan_snoc, hfold]
                show buildStep client_type
                  (st.current_article, st.current_tag)
                  (XEvent.cdata payload) = _
                simp [buildStep, htag]⟩) h
            refine ⟨built, ?_, ha⟩
            simpa [spansAux, isItemStart, isItemClose] using hb
          · rw [if_neg (fun hc => htag hc.2)] at hp
            cases hp
            obtain ⟨built, hb, ha⟩ := ih _
              (some (acc ++ [XEvent.cdata payload])) st2
              (by exact ⟨hin, by
                rw [foldSpan_snoc, hfold]
                show buildStep client_type
                  (st.current_article, st.current_tag)
                  (XEvent.cdata payload) = _
                simp [buildStep, htag]⟩) h
            refine ⟨built, ?_, ha⟩
            simpa [spansAux, isItemStart, isItemClose] using hb
        | close tag =>
          simp only [procEvent] at hp
          by_cases hit : clean_tag_name client_type tag = "item"
          · rw [if_pos ⟨hit, hin⟩] at hp
            cases hp
            obtain ⟨built, hb, ha⟩ := ih _ none st2 (by exact rfl) h
            refine ⟨st.current_article :: built, ?_, ?_⟩
            · have hbf : buildFromSpan client_type acc
                  = some st.current_article := by
                unfold buildFromSpan
                rw [hfold]
                rfl
              simp only [spansAux, isItemStart, isItemClose, hit]
              simp [buildAll, hbf, hb]
            · rw [ha]
              simp
          · rw [if_neg (fun hc => hit hc.1)] at hp
            cases hp
            obtain ⟨built, hb, ha⟩ := ih _
              (some (acc ++ [XEvent.close tag])) st2
              (by exact ⟨hin, by rw [foldSpan_snoc, hfold]; exact rfl⟩) h
            refine ⟨built, ?_, ha⟩
            simpa [spansAux, isItemStart, isItemClose, hit] using hb
        | other =>
          simp only [procEvent] at hp
          cases hp
          obtain ⟨built, hb, ha⟩ := ih _ (some (acc ++ [XEvent.other])) st2
            (by exact ⟨hin, by rw [foldSpan_snoc, hfold]; exact rfl⟩) h
          refine ⟨built, ?_, ha⟩
          simpa [spansAux, isItemStart, isItemClose] using hb

/-- C2: for a document whose tokenizer stream ends normally, the parser
returns exactly one article per `<item>` element closed before
end-of-document, in document order — the result is precisely the list of
articles built from the item spans, and its length is the number of
closed items; an item still open at end-of-document contributes no span
and hence no article, and a document with no closed items yields the
empty list rather than an error. -/
theorem one_article_per_closed_item (client_type : String)
    (events : List XEvent) (arts : List NewsArticle)
    (h : parse_response client_type events none = some (Except.ok arts)) :
    buildAll client_type (itemSpans client_type events) = some arts
    ∧ arts.length = (itemSpans client_type events).length := by
  unfold parse_response at h
  cases hr : runEvents client_type initState events with
  | none => rw [hr] at h; cases h
  | some st =>
    rw [hr] at h
    cases h
    obtain ⟨built, hb, ha⟩ :=
      runEvents_spans client_type events initState none st rfl hr
    have harts : st.articles = built := by simpa using ha
    rw [itemSpans, harts]
    exact ⟨hb, buildAll_length client_type _ built hb⟩

/-- Witness for C2: a document with two closed items and one trailing
unterminated item yields exactly the two articles, in order. -/
theorem one_article_per_closed_item_witness :
    buildAll "wsj" (itemSpans "wsj"
      [XEvent.start "item", XEvent.start "title", XEvent.text "A",
       XEvent.close "title", XEvent.close "item",
       XEvent.start "item", XEvent.start "title", XEvent.text "B",
       XEvent.close "title", XEvent.close "item",
       XEvent.start "item", XEvent.start "title", XEvent.text "orphan"])
      = some [{ NewsArticle.new with title := some "A" },
              { NewsArticle.new with title := some "B" }]
    ∧ ([{ NewsArticle.new with title := some "A" },
        { NewsArticle.new with title := some "B" }] :
          List NewsArticle).length
        = (itemSpans "wsj"
          [XEvent.start "item", XEvent.start "title", XEvent.text "A",
           XEvent.close "title", XEvent.close "item",
           XEvent.start "item", XEvent.start "title", XEvent.text "B",
           XEvent.close "title", XEvent.close "item",
           XEvent.start "item", XEvent.start "title",
           XEvent.text "orphan"]).length :=
  one_article_per_closed_item "wsj"
    [XEvent.start "item", XEvent.start "title", XEvent.text "A",
     XEvent.close "title", XEvent.close "item",
     XEvent.start "item", XEvent.start "title", XEvent.text "B",
     XEvent.close "title", XEvent.close "item",
     XEvent.start "item", XEvent.start "title", XEvent.text "orphan"]
    [{ NewsArticle.new with title := some "A" },
     { NewsArticle.new with title := some "B" }] (by decide)

end FanSpec
